import Mathlib

/-!
Shallow embedding of the COBS / COBS-R decoder and the streaming frame
accumulator of `src/analyzers.py`, together with theorems settling the
spec claims about them.

Bytes are modelled as `Nat` values (the code only distinguishes the zero
byte from nonzero bytes and copies values verbatim); buffers are `List Nat`.
Python exceptions become an explicit `Result` sum type: the two `raise
DecodeError(...)` sites map to the two `DecodeErr` constructors, whose
`reason` field carries the exact exception message string.
-/

namespace CobsHla

/-- The two decode failure kinds raised by `decode_cobs` / `decode_cobsr`. -/
inductive DecodeErr
  | zeroByte
  | truncated
deriving DecidableEq

/-- The exception message string attached to each `DecodeError` raise site. -/
def DecodeErr.reason : DecodeErr → String
  | .zeroByte => "zero byte found in input"
  | .truncated => "not enough input bytes for length code"

/-- Decode Result: either the unstuffed payload or a decode error. -/
inductive Result
  | message (payload : List Nat)
  | error (e : DecodeErr)
deriving DecidableEq

/-- The while-loop of `decode_cobs` (src/analyzers.py lines 61-78), with the
cursor `idx` and output accumulator `out` made explicit.  Each iteration reads
`length = input[idx]`, rejects a zero length code, copies the (clamped) slice
`input[idx+1 : idx+length]` after checking it for zero bytes, then performs the
three boundary checks of the source in order: `idx > len` raises the truncation
error, `idx < len` appends a zero separator for `length < 0xFF` and loops, and
`idx == len` breaks out returning the output. -/
def decodeLoopCobs (input : List Nat) (idx : Nat) (out : List Nat) : Result :=
  if input.getD idx 0 = 0 then .error .zeroByte
  else if 0 ∈ (input.drop (idx + 1)).take (input.getD idx 0 - 1) then .error .zeroByte
  else if input.length < idx + input.getD idx 0 then .error .truncated
  else if h : idx + input.getD idx 0 < input.length then
    decodeLoopCobs input (idx + input.getD idx 0)
      (out ++ (input.drop (idx + 1)).take (input.getD idx 0 - 1) ++
        (if input.getD idx 0 < 255 then [0] else []))
  else .message (out ++ (input.drop (idx + 1)).take (input.getD idx 0 - 1))
termination_by input.length - idx
decreasing_by
  omega

/-- The while-loop of `decode_cobsr` (src/analyzers.py lines 97-115).  It is
identical to `decodeLoopCobs` except at the `idx > len` boundary, where the
literal length byte is appended to the output and decoding stops with a
message instead of failing. -/
def decodeLoopCobsr (input : List Nat) (idx : Nat) (out : List Nat) : Result :=
  if input.getD idx 0 = 0 then .error .zeroByte
  else if 0 ∈ (input.drop (idx + 1)).take (input.getD idx 0 - 1) then .error .zeroByte
  else if input.length < idx + input.getD idx 0 then
    .message (out ++ (input.drop (idx + 1)).take (input.getD idx 0 - 1) ++
      [input.getD idx 0])
  else if h : idx + input.getD idx 0 < input.length then
    decodeLoopCobsr input (idx + input.getD idx 0)
      (out ++ (input.drop (idx + 1)).take (input.getD idx 0 - 1) ++
        (if input.getD idx 0 < 255 then [0] else []))
  else .message (out ++ (input.drop (idx + 1)).take (input.getD idx 0 - 1))
termination_by input.length - idx
decreasing_by
  omega

/-- Decode a stuffed buffer using Consistent Overhead Byte Stuffing (COBS):
an empty output for empty input, otherwise the cursor loop starting at 0. -/
def decode_cobs (input : List Nat) : Result :=
  if 0 < input.length then decodeLoopCobs input 0 [] else .message []

/-- Decode a stuffed buffer using COBS/Reduced (COBS/R). -/
def decode_cobsr (input : List Nat) : Result :=
  if 0 < input.length then decodeLoopCobsr input 0 [] else .message []

/-- Suffix-structured reformulation of the COBS decode loop: `rem` is the
unread suffix `input.drop idx` of the buffer and `acc` the output built so
far.  Proved equivalent to the cursor loop in `decodeLoopCobs_eq_decAux`. -/
def decAuxCobs : List Nat → List Nat → Result
  | [], acc => .message acc
  | length :: rest, acc =>
    if length = 0 then .error .zeroByte
    else if 0 ∈ rest.take (length - 1) then .error .zeroByte
    else if rest.length < length - 1 then .error .truncated
    else if rest.length = length - 1 then .message (acc ++ rest.take (length - 1))
    else
      decAuxCobs (rest.drop (length - 1))
        (acc ++ rest.take (length - 1) ++ (if length < 255 then [0] else []))
termination_by l _ => l.length
decreasing_by
  simp
  omega

/-- The cursor loop of `decode_cobs` agrees with the suffix-structured
reformulation at every in-bounds cursor position. -/
theorem decodeLoopCobs_eq_decAux (input : List Nat) :
    ∀ fuel idx out, input.length - idx ≤ fuel → idx < input.length →
      decodeLoopCobs input idx out = decAuxCobs (input.drop idx) out := by
  intro fuel
  induction fuel with
  | zero =>
    intro idx out hf hidx
    omega
  | succ n ih =>
    intro idx out hf hidx
    have hdrop := List.drop_eq_getElem_cons hidx
    have hget : input.getD idx 0 = input[idx] := List.getD_eq_getElem input 0 hidx
    have hlen : (input.drop (idx + 1)).length = input.length - (idx + 1) :=
      List.length_drop _ _
    by_cases h0 : input[idx] = 0
    · rw [decodeLoopCobs.eq_def, hget, if_pos h0, hdrop, decAuxCobs.eq_2, if_pos h0]
    have hLpos : 1 ≤ input[idx] := Nat.one_le_iff_ne_zero.2 h0
    by_cases hmem : 0 ∈ (input.drop (idx + 1)).take (input[idx] - 1)
    · rw [decodeLoopCobs.eq_def, hget, if_neg h0, if_pos hmem, hdrop,
        decAuxCobs.eq_2, if_neg h0, if_pos hmem]
    by_cases htr : input.length < idx + input[idx]
    · rw [decodeLoopCobs.eq_def, hget, if_neg h0, if_neg hmem, if_pos htr, hdrop,
        decAuxCobs.eq_2, if_neg h0, if_neg hmem, if_pos (by omega)]
    by_cases hlt : idx + input[idx] < input.length
    · rw [decodeLoopCobs.eq_def, hget, if_neg h0, if_neg hmem, if_neg htr,
        dif_pos hlt, hdrop, decAuxCobs.eq_2, if_neg h0, if_neg hmem]
      rw [if_neg (show ¬(List.drop (idx + 1) input).length < input[idx] - 1 by omega)]
      rw [if_neg (show ¬(List.drop (idx + 1) input).length = input[idx] - 1 by omega)]
      rw [List.drop_drop]
      have harith : idx + 1 + (input[idx] - 1) = idx + input[idx] := by omega
      rw [harith]
      exact ih (idx + input[idx]) _ (by omega) hlt
    · have heq : idx + input[idx] = input.length := by omega
      rw [decodeLoopCobs.eq_def, hget, if_neg h0, if_neg hmem, if_neg htr,
        dif_neg hlt, hdrop, decAuxCobs.eq_2, if_neg h0, if_neg hmem,
        if_neg (by omega), if_pos (by omega)]

/-- Modelled from the spec: the repository implements no encoder ("it performs
no encoding (encoding is not implemented)"), and the round-trip law of §8
"requires a reference encoder for the test oracle".  This is the standard
reference COBS encoder, following the glossary of the spec ("a framing scheme
encoding a byte sequence so it never contains the reserved delimiter value, at
the cost of exactly one overhead byte per ≤254 payload bytes"): scan the
payload keeping the current run of nonzero bytes; a zero payload byte emits
the run behind the length code `run.length + 1`; a run reaching 254 bytes is
emitted behind the maximal length code `0xFF` (the run-length-255 case of
§4.1 step 6); the final, possibly empty, run is emitted last. -/
def encLoop : List Nat → List Nat → List Nat
  | [], run => (run.length + 1) :: run
  | b :: rest, run =>
    if b = 0 then ((run.length + 1) :: run) ++ encLoop rest []
    else if run.length = 253 then (255 :: (run ++ [b])) ++ encLoop rest []
    else encLoop rest (run ++ [b])

/-- Reference COBS stuffing of a payload (see `encLoop`). -/
def cobs_encode (p : List Nat) : List Nat := encLoop p []

theorem encLoop_ne_nil : ∀ p run, encLoop p run ≠ [] := by
  intro p
  induction p with
  | nil =>
    intro run
    simp [encLoop]
  | cons b rest ih =>
    intro run
    simp only [encLoop]
    split_ifs with h1 h2
    · simp
    · simp
    · exact ih (run ++ [b])

/-- Decoding an encoder state: running the suffix decoder on the encoding of
`p` continued from a pending nonzero run `run` yields `acc ++ run ++ p`. -/
theorem decAux_encLoop : ∀ p run acc, 0 ∉ run → run.length ≤ 253 →
    decAuxCobs (encLoop p run) acc = .message (acc ++ run ++ p) := by
  intro p
  induction p with
  | nil =>
    intro run acc hz hlen
    simp only [encLoop]
    rw [decAuxCobs.eq_2]
    have h1 : run.length + 1 - 1 = run.length := by omega
    rw [h1, List.take_length]
    rw [if_neg (by omega), if_neg hz, if_neg (by omega), if_pos rfl]
    simp
  | cons b rest ih =>
    intro run acc hz hlen
    by_cases hb : b = 0
    · subst hb
      rw [encLoop.eq_2, if_pos (show (0 : Nat) = 0 from rfl)]
      rw [List.cons_append, decAuxCobs.eq_2]
      have h1 : run.length + 1 - 1 = run.length := by omega
      rw [h1, List.take_left, List.length_append]
      have hE : (encLoop rest []).length ≠ 0 := by
        simpa using encLoop_ne_nil rest []
      rw [if_neg (by omega), if_neg hz]
      rw [if_neg (show ¬run.length + (encLoop rest []).length < run.length by omega)]
      rw [if_neg (show ¬run.length + (encLoop rest []).length = run.length by omega)]
      rw [List.drop_left]
      rw [if_pos (show run.length + 1 < 255 by omega)]
      rw [ih [] (acc ++ run ++ [0]) (by simp) (by simp)]
      simp
    · have hzb : (0 : Nat) ∉ run ++ [b] := by
        intro hmem
        rcases List.mem_append.1 hmem with h | h
        · exact hz h
        · rw [List.mem_singleton] at h
          exact hb h.symm
      by_cases hrun : run.length = 253
      · rw [encLoop.eq_2, if_neg hb, if_pos hrun]
        rw [List.cons_append, decAuxCobs.eq_2]
        have hlb : (run ++ [b]).length = 255 - 1 := by
          simp [hrun]
        have hE : (encLoop rest []).length ≠ 0 := by
          simpa using encLoop_ne_nil rest []
        rw [List.take_left' hlb, List.length_append, hlb]
        rw [if_neg (by omega), if_neg hzb]
        rw [if_neg (show ¬255 - 1 + (encLoop rest []).length < 255 - 1 by omega)]
        rw [if_neg (show ¬255 - 1 + (encLoop rest []).length = 255 - 1 by omega)]
        rw [List.drop_left' hlb]
        rw [if_neg (show ¬(255 : Nat) < 255 by omega), List.append_nil]
        rw [ih [] (acc ++ (run ++ [b])) (by simp) (by simp)]
        simp
      · rw [encLoop.eq_2, if_neg hb, if_neg hrun]
        rw [ih (run ++ [b]) acc hzb (by simp; omega)]
        simp

/-- C1: for every payload `P` (a sequence of bytes, no length restriction),
applying `decode_cobs` to a correct COBS stuffing of `P` — produced by the
reference COBS encoder `cobs_encode` — returns `Message P` exactly. -/
theorem claim_C1_roundtrip (p : List Nat) (hbytes : ∀ b ∈ p, b < 256) :
    decode_cobs (cobs_encode p) = .message p := by
  have hne : cobs_encode p ≠ [] := encLoop_ne_nil p []
  have hpos : 0 < (cobs_encode p).length := List.length_pos.mpr hne
  unfold decode_cobs
  rw [if_pos hpos,
    decodeLoopCobs_eq_decAux (cobs_encode p) (cobs_encode p).length 0 [] (by omega) hpos,
    List.drop_zero]
  have h := decAux_encLoop p [] [] (by simp) (by simp)
  simpa [cobs_encode] using h

/-- Witness for C1 at the concrete payload `[1, 0, 2]` (whose stuffing is
`[2, 1, 2, 2]`). -/
theorem claim_C1_roundtrip_witness :
    (∀ b ∈ [1, 0, 2], b < 256) ∧
      decode_cobs (cobs_encode [1, 0, 2]) = .message [1, 0, 2] :=
  ⟨by decide, claim_C1_roundtrip [1, 0, 2] (by decide)⟩

/-- C9: both decoders map the empty buffer to an empty `Message`, and
`decode_cobs` applied to the single byte `0x01` returns an empty payload
(one length-1 code with zero chunk bytes). -/
theorem claim_C9_empty_inputs :
    decode_cobs [] = .message [] ∧ decode_cobsr [] = .message [] ∧
      decode_cobs [1] = .message [] := by
  refine ⟨by simp [decode_cobs], by simp [decode_cobsr], ?_⟩
  simp [decode_cobs, decodeLoopCobs.eq_def]

/-- C2: whenever the COBS/R loop reaches the boundary `idx > len(input)`
after consuming a chunk (nonzero length code `L` read at the cursor, no zero
byte in the clamped chunk), it does not fail: it appends the literal length
byte `L` to the output and stops with a `Message`; in particular
`decode_cobsr [0x05, 'a', 'b']` returns `"ab"` followed by byte `0x05`. -/
theorem claim_C2_cobsr_salvage :
    (∀ input idx out L, input.getD idx 0 = L → L ≠ 0 →
        0 ∉ (input.drop (idx + 1)).take (L - 1) →
        input.length < idx + L →
        decodeLoopCobsr input idx out =
          .message (out ++ (input.drop (idx + 1)).take (L - 1) ++ [L])) ∧
      decode_cobsr [5, 97, 98] = .message [97, 98, 5] := by
  constructor
  · intro input idx out L hL h0 hmem hover
    subst hL
    rw [decodeLoopCobsr.eq_def, if_neg h0, if_neg hmem, if_pos hover]
  · simp [decode_cobsr, decodeLoopCobsr.eq_def]

/-- Witness for C2 at the buffer `[5, 97, 98]`: length code 5 claims more
bytes than the 2 that remain, and the length byte is salvaged as data. -/
theorem claim_C2_cobsr_salvage_witness :
    ([5, 97, 98] : List Nat).getD 0 0 = 5 ∧ (5 : Nat) ≠ 0 ∧
      0 ∉ (([5, 97, 98] : List Nat).drop (0 + 1)).take (5 - 1) ∧
      ([5, 97, 98] : List Nat).length < 0 + 5 ∧
      decodeLoopCobsr [5, 97, 98] 0 [] =
        .message ([] ++ (([5, 97, 98] : List Nat).drop (0 + 1)).take (5 - 1) ++ [5]) :=
  ⟨rfl, by decide, by decide, by decide,
    claim_C2_cobsr_salvage.1 [5, 97, 98] 0 [] 5 rfl (by decide) (by decide) (by decide)⟩

/-- C5: for both variants, after consuming a chunk with length code `L`:
when more input remains (`idx < len`) a single zero byte is appended to the
output only if `L < 0xFF` (a length code 255 appends no separator) and the
loop continues; when the end of input is reached exactly (`idx == len`)
decoding stops with no trailing zero appended. -/
theorem claim_C5_separator :
    ∀ input idx out L, input.getD idx 0 = L → L ≠ 0 →
      0 ∉ (input.drop (idx + 1)).take (L - 1) →
      ((idx + L < input.length →
          decodeLoopCobs input idx out =
            decodeLoopCobs input (idx + L)
              (out ++ (input.drop (idx + 1)).take (L - 1) ++
                (if L < 255 then [0] else [])) ∧
          decodeLoopCobsr input idx out =
            decodeLoopCobsr input (idx + L)
              (out ++ (input.drop (idx + 1)).take (L - 1) ++
                (if L < 255 then [0] else []))) ∧
        (idx + L = input.length →
          decodeLoopCobs input idx out =
            .message (out ++ (input.drop (idx + 1)).take (L - 1)) ∧
          decodeLoopCobsr input idx out =
            .message (out ++ (input.drop (idx + 1)).take (L - 1)))) := by
  intro input idx out L hL h0 hmem
  subst hL
  constructor
  · intro hlt
    have htr : ¬input.length < idx + input.getD idx 0 := by omega
    constructor
    · rw [decodeLoopCobs.eq_def, if_neg h0, if_neg hmem, if_neg htr, dif_pos hlt]
    · rw [decodeLoopCobsr.eq_def, if_neg h0, if_neg hmem, if_neg htr, dif_pos hlt]
  · intro heq
    have htr : ¬input.length < idx + input.getD idx 0 := by omega
    have hlt : ¬idx + input.getD idx 0 < input.length := by omega
    constructor
    · rw [decodeLoopCobs.eq_def, if_neg h0, if_neg hmem, if_neg htr, dif_neg hlt]
    · rw [decodeLoopCobsr.eq_def, if_neg h0, if_neg hmem, if_neg htr, dif_neg hlt]

/-- Witness for C5 at the buffer `[2, 7, 1]`, cursor 0: the chunk `[7]` is
consumed, `idx + L = 2 < 3`, and a zero separator is appended. -/
theorem claim_C5_separator_witness :
    ([2, 7, 1] : List Nat).getD 0 0 = 2 ∧ (2 : Nat) ≠ 0 ∧
      0 ∉ (([2, 7, 1] : List Nat).drop (0 + 1)).take (2 - 1) ∧ 0 + 2 < ([2, 7, 1] : List Nat).length ∧
      decodeLoopCobs [2, 7, 1] 0 [] =
        decodeLoopCobs [2, 7, 1] (0 + 2)
          ([] ++ (([2, 7, 1] : List Nat).drop (0 + 1)).take (2 - 1) ++
            (if (2 : Nat) < 255 then [0] else [])) :=
  ⟨rfl, by decide, by decide, by decide,
    ((claim_C5_separator [2, 7, 1] 0 [] 2 rfl (by decide) (by decide)).1 (by decide)).1⟩

/-- COBS/R refines COBS on successes, loop level: whenever the COBS loop
produces a message from a given cursor state, the COBS/R loop produces the
same message from that state. -/
theorem loopCobsr_message_of_loopCobs : ∀ fuel input idx out m,
    input.length - idx ≤ fuel →
    decodeLoopCobs input idx out = .message m →
    decodeLoopCobsr input idx out = .message m := by
  intro fuel
  induction fuel with
  | zero =>
    intro input idx out m hf h
    have hg : input.getD idx 0 = 0 := List.getD_eq_default _ _ (by omega)
    rw [decodeLoopCobs.eq_def, if_pos hg] at h
    exact absurd h (by simp)
  | succ n ih =>
    intro input idx out m hf h
    rw [decodeLoopCobs.eq_def] at h
    rw [decodeLoopCobsr.eq_def]
    by_cases h0 : input.getD idx 0 = 0
    · rw [if_pos h0] at h
      exact absurd h (by simp)
    rw [if_neg h0] at h ⊢
    by_cases hmem : 0 ∈ (input.drop (idx + 1)).take (input.getD idx 0 - 1)
    · rw [if_pos hmem] at h
      exact absurd h (by simp)
    rw [if_neg hmem] at h ⊢
    by_cases htr : input.length < idx + input.getD idx 0
    · rw [if_pos htr] at h
      exact absurd h (by simp)
    rw [if_neg htr] at h ⊢
    by_cases hlt : idx + input.getD idx 0 < input.length
    · rw [dif_pos hlt] at h ⊢
      exact ih input (idx + input.getD idx 0) _ m (by omega) h
    · rw [dif_neg hlt] at h ⊢
      exact h

/-- C10: for every input buffer on which `decode_cobs` returns a `Message`,
`decode_cobsr` applied to the same buffer returns the same `Message`. -/
theorem claim_C10_cobsr_refines_cobs (input m : List Nat)
    (h : decode_cobs input = .message m) : decode_cobsr input = .message m := by
  unfold decode_cobs at h
  unfold decode_cobsr
  by_cases hpos : 0 < input.length
  · rw [if_pos hpos] at h ⊢
    exact loopCobsr_message_of_loopCobs input.length input 0 [] m (by omega) h
  · rw [if_neg hpos] at h ⊢
    exact h

/-- Witness for C10 at the buffer `[2, 7]`, which COBS-decodes to `[7]`. -/
theorem claim_C10_cobsr_refines_cobs_witness :
    decode_cobs [2, 7] = .message [7] ∧ decode_cobsr [2, 7] = .message [7] :=
  have h : decode_cobs [2, 7] = .message [7] := by
    simp [decode_cobs, decodeLoopCobs.eq_def]
  ⟨h, claim_C10_cobsr_refines_cobs [2, 7] [7] h⟩

/-- Mirror of the shared decode-loop control flow recording only whether the
scan, after consuming a chunk (a nonzero length code whose clamped chunk
slice holds no zero byte), reaches a cursor `idx > len(input)`.  It moves the
cursor exactly as both decode loops do and carries no output. -/
def loopOverrun (input : List Nat) (idx : Nat) : Bool :=
  if input.getD idx 0 = 0 then false
  else if 0 ∈ (input.drop (idx + 1)).take (input.getD idx 0 - 1) then false
  else if input.length < idx + input.getD idx 0 then true
  else if _h : idx + input.getD idx 0 < input.length then
    loopOverrun input (idx + input.getD idx 0)
  else false
termination_by input.length - idx
decreasing_by
  omega

/-- A nonempty buffer whose scan reaches a cursor past the end of the input
after consuming a chunk: some length code claims more bytes than remain. -/
def reachesOverrun (input : List Nat) : Bool :=
  !input.isEmpty && loopOverrun input 0

/-- Mirror of the shared decode-loop control flow recording only whether the
scan reads a zero length code at the cursor, or a zero byte inside the
clamped chunk slice following a length code. -/
def loopHitsZero (input : List Nat) (idx : Nat) : Bool :=
  if input.getD idx 0 = 0 then true
  else if 0 ∈ (input.drop (idx + 1)).take (input.getD idx 0 - 1) then true
  else if input.length < idx + input.getD idx 0 then false
  else if _h : idx + input.getD idx 0 < input.length then
    loopHitsZero input (idx + input.getD idx 0)
  else false
termination_by input.length - idx
decreasing_by
  omega

/-- A nonempty buffer whose scan reads a literal zero, either as a length
code or inside a chunk slice. -/
def reachesZero (input : List Nat) : Bool :=
  !input.isEmpty && loopHitsZero input 0

theorem loopCobs_truncated_iff : ∀ fuel input idx out,
    input.length - idx ≤ fuel →
    (decodeLoopCobs input idx out = .error .truncated ↔
      loopOverrun input idx = true) := by
  intro fuel
  induction fuel with
  | zero =>
    intro input idx out hf
    have hg : input.getD idx 0 = 0 := List.getD_eq_default _ _ (by omega)
    rw [decodeLoopCobs.eq_def, if_pos hg, loopOverrun.eq_def, if_pos hg]
    simp
  | succ n ih =>
    intro input idx out hf
    rw [decodeLoopCobs.eq_def, loopOverrun.eq_def]
    by_cases h0 : input.getD idx 0 = 0
    · rw [if_pos h0, if_pos h0]
      simp
    rw [if_neg h0, if_neg h0]
    by_cases hmem : 0 ∈ (input.drop (idx + 1)).take (input.getD idx 0 - 1)
    · rw [if_pos hmem, if_pos hmem]
      simp
    rw [if_neg hmem, if_neg hmem]
    by_cases htr : input.length < idx + input.getD idx 0
    · rw [if_pos htr, if_pos htr]
      simp
    rw [if_neg htr, if_neg htr]
    by_cases hlt : idx + input.getD idx 0 < input.length
    · rw [dif_pos hlt, dif_pos hlt]
      exact ih input (idx + input.getD idx 0) _ (by omega)
    · rw [dif_neg hlt, dif_neg hlt]
      simp

theorem loopCobsr_ne_truncated : ∀ fuel input idx out,
    input.length - idx ≤ fuel →
    decodeLoopCobsr input idx out ≠ .error .truncated := by
  intro fuel
  induction fuel with
  | zero =>
    intro input idx out hf
    have hg : input.getD idx 0 = 0 := List.getD_eq_default _ _ (by omega)
    rw [decodeLoopCobsr.eq_def, if_pos hg]
    simp
  | succ n ih =>
    intro input idx out hf
    rw [decodeLoopCobsr.eq_def]
    by_cases h0 : input.getD idx 0 = 0
    · rw [if_pos h0]
      simp
    rw [if_neg h0]
    by_cases hmem : 0 ∈ (input.drop (idx + 1)).take (input.getD idx 0 - 1)
    · rw [if_pos hmem]
      simp
    rw [if_neg hmem]
    by_cases htr : input.length < idx + input.getD idx 0
    · rw [if_pos htr]
      simp
    rw [if_neg htr]
    by_cases hlt : idx + input.getD idx 0 < input.length
    · rw [dif_pos hlt]
      exact ih input (idx + input.getD idx 0) _ (by omega)
    · rw [dif_neg hlt]
      simp

theorem loopCobs_zero_iff : ∀ fuel input idx out,
    input.length - idx ≤ fuel →
    (decodeLoopCobs input idx out = .error .zeroByte ↔
      loopHitsZero input idx = true) := by
  intro fuel
  induction fuel with
  | zero =>
    intro input idx out hf
    have hg : input.getD idx 0 = 0 := List.getD_eq_default _ _ (by omega)
    rw [decodeLoopCobs.eq_def, if_pos hg, loopHitsZero.eq_def, if_pos hg]
    simp
  | succ n ih =>
    intro input idx out hf
    rw [decodeLoopCobs.eq_def, loopHitsZero.eq_def]
    by_cases h0 : input.getD idx 0 = 0
    · rw [if_pos h0, if_pos h0]
      simp
    rw [if_neg h0, if_neg h0]
    by_cases hmem : 0 ∈ (input.drop (idx + 1)).take (input.getD idx 0 - 1)
    · rw [if_pos hmem, if_pos hmem]
      simp
    rw [if_neg hmem, if_neg hmem]
    by_cases htr : input.length < idx + input.getD idx 0
    · rw [if_pos htr, if_pos htr]
      simp
    rw [if_neg htr, if_neg htr]
    by_cases hlt : idx + input.getD idx 0 < input.length
    · rw [dif_pos hlt, dif_pos hlt]
      exact ih input (idx + input.getD idx 0) _ (by omega)
    · rw [dif_neg hlt, dif_neg hlt]
      simp

theorem loopCobsr_zero_iff : ∀ fuel input idx out,
    input.length - idx ≤ fuel →
    (decodeLoopCobsr input idx out = .error .zeroByte ↔
      loopHitsZero input idx = true) := by
  intro fuel
  induction fuel with
  | zero =>
    intro input idx out hf
    have hg : input.getD idx 0 = 0 := List.getD_eq_default _ _ (by omega)
    rw [decodeLoopCobsr.eq_def, if_pos hg, loopHitsZero.eq_def, if_pos hg]
    simp
  | succ n ih =>
    intro input idx out hf
    rw [decodeLoopCobsr.eq_def, loopHitsZero.eq_def]
    by_cases h0 : input.getD idx 0 = 0
    · rw [if_pos h0, if_pos h0]
      simp
    rw [if_neg h0, if_neg h0]
    by_cases hmem : 0 ∈ (input.drop (idx + 1)).take (input.getD idx 0 - 1)
    · rw [if_pos hmem, if_pos hmem]
      simp
    rw [if_neg hmem, if_neg hmem]
    by_cases htr : input.length < idx + input.getD idx 0
    · rw [if_pos htr, if_pos htr]
      simp
    rw [if_neg htr, if_neg htr]
    by_cases hlt : idx + input.getD idx 0 < input.length
    · rw [dif_pos hlt, dif_pos hlt]
      exact ih input (idx + input.getD idx 0) _ (by omega)
    · rw [dif_neg hlt, dif_neg hlt]
      simp

/-- C3: `decode_cobs` fails with the truncation error (whose reason string is
"not enough input bytes for length code") exactly when the scan, after
consuming a chunk, reaches a cursor `idx > len(input)` — some length code
claims more bytes than remain; `decode_cobsr` never returns this error. -/
theorem claim_C3_truncated_iff :
    (∀ input, (decode_cobs input = .error .truncated ↔
          reachesOverrun input = true) ∧
        decode_cobsr input ≠ .error .truncated) ∧
      DecodeErr.truncated.reason = "not enough input bytes for length code" := by
  refine ⟨fun input => ⟨?_, ?_⟩, rfl⟩
  · unfold decode_cobs reachesOverrun
    by_cases hpos : 0 < input.length
    · rw [if_pos hpos]
      have hne : ¬input.isEmpty := by
        cases input with
        | nil => simp at hpos
        | cons a l => simp
      simp only [hne, Bool.not_false, Bool.true_and]
      exact loopCobs_truncated_iff input.length input 0 [] (by omega)
    · have hnil : input = [] := by
        cases input with
        | nil => rfl
        | cons a l => simp at hpos
      subst hnil
      simp
  · unfold decode_cobsr
    by_cases hpos : 0 < input.length
    · rw [if_pos hpos]
      exact loopCobsr_ne_truncated input.length input 0 [] (by omega)
    · rw [if_neg hpos]
      simp

/-- C4: for both decoders, decoding fails with the zero-byte error (reason
"zero byte found in input") exactly when a length code read at the cursor is
zero or the chunk slice following a length code contains a zero byte; in
particular `decode_cobs [0x00]` returns this error. -/
theorem claim_C4_zero_byte_iff :
    (∀ input, (decode_cobs input = .error .zeroByte ↔
          reachesZero input = true) ∧
        (decode_cobsr input = .error .zeroByte ↔ reachesZero input = true)) ∧
      decode_cobs [0] = .error .zeroByte ∧
      DecodeErr.zeroByte.reason = "zero byte found in input" := by
  refine ⟨fun input => ?_, by simp [decode_cobs, decodeLoopCobs.eq_def], rfl⟩
  unfold decode_cobs decode_cobsr reachesZero
  by_cases hpos : 0 < input.length
  · rw [if_pos hpos, if_pos hpos]
    have hne : ¬input.isEmpty := by
      cases input with
      | nil => simp at hpos
      | cons a l => simp
    simp only [hne, Bool.not_false, Bool.true_and]
    exact ⟨loopCobs_zero_iff input.length input 0 [] (by omega),
      loopCobsr_zero_iff input.length input 0 [] (by omega)⟩
  · have hnil : input = [] := by
      cases input with
      | nil => rfl
      | cons a l => simp at hpos
    subst hnil
    simp

/-- Witness for C3 at the truncated buffer `[5, 97, 98]`: the length code 5
claims 4 payload bytes but only 2 remain, so COBS fails with the truncation
error, matching the overrun mirror. -/
theorem claim_C3_truncated_iff_witness :
    decode_cobs [5, 97, 98] = .error .truncated ∧
      reachesOverrun [5, 97, 98] = true :=
  have h : reachesOverrun [5, 97, 98] = true := by
    simp [reachesOverrun, loopOverrun.eq_def]
  ⟨(claim_C3_truncated_iff.1 [5, 97, 98]).1.mpr h, h⟩

/-- Witness for C4 at the buffer `[3, 97, 0]`, whose chunk slice contains a
zero byte. -/
theorem claim_C4_zero_byte_iff_witness :
    decode_cobs [3, 97, 0] = .error .zeroByte ∧ reachesZero [3, 97, 0] = true :=
  have h : reachesZero [3, 97, 0] = true := by
    simp [reachesZero, loopHitsZero.eq_def]
  ⟨(claim_C4_zero_byte_iff.1 [3, 97, 0]).1.mpr h, h⟩

/-- One timestamped byte event delivered to the analyzer: its value and the
start/end timestamps of the frame carrying it (timestamps modelled as `Nat`;
the code only stores and copies them). -/
structure TimedByte where
  data : Nat
  startTime : Nat
  endTime : Nat
deriving DecidableEq

/-- The mutable state of `CobsXDecoder` (src/analyzers.py lines 137-140):
the buffered raw bytes since the last delimiter and the two recorded
timestamps, each optional exactly as the `None`-initialized fields are. -/
structure AccState where
  received : List Nat
  frame_start_time : Option Nat
  frame_end_time : Option Nat
deriving DecidableEq

/-- The initial state built by `CobsXDecoder.__init__`. -/
def accInit : AccState :=
  ⟨[], none, none⟩

/-- The content of an emitted `AnalyzerFrame`: a decoded message payload or
the string of the caught `DecodeError`. -/
inductive FrameKind
  | message (payload : List Nat)
  | error (reason : String)
deriving DecidableEq

/-- Kind of the `AnalyzerFrame` built from a codec result: `Message` frames
carry the decoded bytes, `Error` frames carry `str(de)`. -/
def mkKind : Result → FrameKind
  | .message m => .message m
  | .error e => .error e.reason

/-- An emitted `AnalyzerFrame` with its start and end timestamps. -/
structure TimedFrame where
  kind : FrameKind
  startTime : Option Nat
  endTime : Option Nat
deriving DecidableEq

/-- The `decode` method of `CobsXDecoder` (src/analyzers.py lines 142-177),
processing one timestamped byte: `decode_bytes` is the codec of the concrete
subclass (`decode_cobs` or `decode_cobsr`) and `k` the configured
`number_of_prefix_bytes_after_0_byte` setting.  Returns the successor state
together with the emitted frame, if any.  On a delimiter byte the first `k`
buffered bytes are deleted when at least `k` are buffered, the rest is decoded
when nonempty, and the state is reset with `frame_start_time` primed to this
delimiter byte's start time; on any other byte the value is appended and
`frame_end_time` updated. -/
def CobsXDecoder.decode (decode_bytes : List Nat → Result) (k : Nat)
    (s : AccState) (b : TimedByte) : AccState × Option TimedFrame :=
  let fst := if s.frame_start_time = none then some b.startTime
    else s.frame_start_time
  if b.data = 0 then
    let received1 := if k ≤ s.received.length then s.received.drop k
      else s.received
    let retval : Option TimedFrame :=
      if received1 = [] then none
      else some ⟨mkKind (decode_bytes received1), fst, s.frame_end_time⟩
    (⟨[], some b.startTime, s.frame_end_time⟩, retval)
  else
    (⟨s.received ++ [b.data], fst, some b.endTime⟩, none)

/-- Repeated invocation of `CobsXDecoder.decode` on a stream of timestamped
bytes, collecting the emitted frames in order. -/
def runAcc (decode_bytes : List Nat → Result) (k : Nat) :
    AccState → List TimedByte → List TimedFrame
  | _, [] => []
  | s, b :: rest =>
    match CobsXDecoder.decode decode_bytes k s b with
    | (s1, none) => runAcc decode_bytes k s1 rest
    | (s1, some fr) => fr :: runAcc decode_bytes k s1 rest

/-- C6: processing a delimiter with configured count `k`: when at least `k`
bytes are buffered, the step behaves exactly as the step with count 0 on the
buffer with its first `k` bytes removed (the prefix bytes are stripped before
decoding); when fewer than `k` bytes are buffered it behaves as the step with
count 0 on the unchanged buffer (no bytes are removed); and when the buffer
is empty after this stripping no Timed Frame is emitted. -/
theorem claim_C6_strip (decode_bytes : List Nat → Result) (k : Nat)
    (s : AccState) (b : TimedByte) (hb : b.data = 0) :
    (k ≤ s.received.length →
        CobsXDecoder.decode decode_bytes k s b =
          CobsXDecoder.decode decode_bytes 0
            ⟨s.received.drop k, s.frame_start_time, s.frame_end_time⟩ b) ∧
      (s.received.length < k →
        CobsXDecoder.decode decode_bytes k s b =
          CobsXDecoder.decode decode_bytes 0 s b) ∧
      ((if k ≤ s.received.length then s.received.drop k else s.received) = [] →
        (CobsXDecoder.decode decode_bytes k s b).2 = none) := by
  refine ⟨fun hk => ?_, fun hk => ?_, fun hemp => ?_⟩
  · simp [CobsXDecoder.decode, hb, hk]
  · simp [CobsXDecoder.decode, hb, Nat.not_le.mpr hk]
  · simp [CobsXDecoder.decode, hb, hemp]

/-- Witness for C6: a delimiter with `k = 2` and three buffered bytes behaves
as `k = 0` on the stripped buffer `[7]`. -/
theorem claim_C6_strip_witness :
    (⟨0, 5, 6⟩ : TimedByte).data = 0 ∧ 2 ≤ ([9, 8, 7] : List Nat).length ∧
      CobsXDecoder.decode decode_cobs 2 ⟨[9, 8, 7], some 1, some 2⟩ ⟨0, 5, 6⟩ =
        CobsXDecoder.decode decode_cobs 0 ⟨[7], some 1, some 2⟩ ⟨0, 5, 6⟩ :=
  ⟨rfl, by decide,
    (claim_C6_strip decode_cobs 2 ⟨[9, 8, 7], some 1, some 2⟩ ⟨0, 5, 6⟩ rfl).1
      (by decide)⟩

/-- Counterexample to C7 as stated: processing a delimiter does NOT unset
`frame_end_time` (the source resets only `received` and `frame_start_time`).
Feeding byte 97 at times (10, 11) and then the delimiter at (12, 13) from the
initial state emits a frame, leaves `received` empty, yet leaves
`frame_end_time = some 11`, which is not `none`. -/
theorem claim_C7_reset_counterexample :
    (CobsXDecoder.decode decode_cobs 0
        (CobsXDecoder.decode decode_cobs 0 accInit ⟨97, 10, 11⟩).1
        ⟨0, 12, 13⟩).2.isSome = true ∧
      (CobsXDecoder.decode decode_cobs 0
        (CobsXDecoder.decode decode_cobs 0 accInit ⟨97, 10, 11⟩).1
        ⟨0, 12, 13⟩).1.received = [] ∧
      (CobsXDecoder.decode decode_cobs 0
        (CobsXDecoder.decode decode_cobs 0 accInit ⟨97, 10, 11⟩).1
        ⟨0, 12, 13⟩).1.frame_end_time = some 11 ∧
      (some 11 : Option Nat) ≠ none := by
  refine ⟨?_, ?_, ?_, by simp⟩ <;>
    simp [CobsXDecoder.decode, accInit, mkKind, decode_cobs,
      decodeLoopCobs.eq_def]

/-- C7 amended: after `decode` processes a delimiter byte the state is reset
except for `frame_end_time`: `received` becomes empty and `frame_start_time`
is set to this delimiter byte's start time, while `frame_end_time` keeps its
previous value (the source never clears it; the stale value is however never
visible in a later emitted frame, see the C8 theorem). -/
theorem claim_C7_reset_amended (decode_bytes : List Nat → Result) (k : Nat)
    (s : AccState) (b : TimedByte) (hb : b.data = 0) :
    (CobsXDecoder.decode decode_bytes k s b).1 =
      ⟨[], some b.startTime, s.frame_end_time⟩ := by
  simp [CobsXDecoder.decode, hb]

/-- Witness for the amended C7 at a concrete emitting step. -/
theorem claim_C7_reset_amended_witness :
    (⟨0, 12, 13⟩ : TimedByte).data = 0 ∧
      (CobsXDecoder.decode decode_cobs 0 ⟨[97], some 10, some 11⟩
          ⟨0, 12, 13⟩).1 = ⟨[], some 12, some 11⟩ :=
  ⟨rfl, claim_C7_reset_amended decode_cobs 0 ⟨[97], some 10, some 11⟩
    ⟨0, 12, 13⟩ rfl⟩

/-- Prefix stripping applied by the accumulator at a delimiter. -/
def stripBuf (k : Nat) (r : List Nat) : List Nat :=
  if k ≤ r.length then r.drop k else r

/-- The recorded frame start time after buffering a segment `seg` on top of a
previously recorded value `p`: an already-set value is kept, otherwise the
first buffered byte's start time (if any). -/
def mergeStart (p : Option Nat) (seg : List TimedByte) : Option Nat :=
  if p = none then seg.head?.map (·.startTime) else p

/-- The recorded frame end time after buffering a segment `seg` on top of a
previously recorded value `p`: the last buffered byte's end time, or the
previous value when nothing was buffered. -/
def mergeEnd (p : Option Nat) (seg : List TimedByte) : Option Nat :=
  if seg = [] then p else seg.getLast?.map (·.endTime)

theorem mergeStart_step (p : Option Nat) (b : TimedByte) (tl : List TimedByte) :
    mergeStart (if p = none then some b.startTime else p) tl =
      mergeStart p (b :: tl) := by
  cases p <;> simp [mergeStart]

theorem mergeEnd_step (p : Option Nat) (b : TimedByte) (tl : List TimedByte) :
    mergeEnd (some b.endTime) tl = mergeEnd p (b :: tl) := by
  cases tl with
  | nil => simp [mergeEnd]
  | cons c tl2 => simp [mergeEnd, List.getLast?_cons_cons]

theorem mergeStart_ne_none (p : Option Nat) (seg : List TimedByte)
    (h : seg ≠ []) : mergeStart p seg ≠ none := by
  cases p with
  | none =>
    cases seg with
    | nil => exact absurd rfl h
    | cons c tl => simp [mergeStart]
  | some t => simp [mergeStart]

theorem mergeEnd_irrel (p q : Option Nat) (seg : List TimedByte)
    (h : seg ≠ []) : mergeEnd p seg = mergeEnd q seg := by
  simp [mergeEnd, h]

/-- Unfolding one byte of `runAcc`. -/
theorem runAcc_cons (decode_bytes : List Nat → Result) (k : Nat)
    (s : AccState) (b : TimedByte) (rest : List TimedByte) :
    runAcc decode_bytes k s (b :: rest) =
      (CobsXDecoder.decode decode_bytes k s b).2.toList ++
        runAcc decode_bytes k (CobsXDecoder.decode decode_bytes k s b).1 rest := by
  cases hdec : CobsXDecoder.decode decode_bytes k s b with
  | mk s1 fr =>
    cases fr with
    | none => simp [runAcc, hdec]
    | some f => simp [runAcc, hdec]

/-- Buffering a delimiter-free segment: the accumulator appends the byte
values and updates the two timestamps, emitting nothing. -/
theorem runAcc_seg (decode_bytes : List Nat → Result) (k : Nat) :
    ∀ (seg : List TimedByte) (s : AccState) (rest : List TimedByte),
      (∀ b ∈ seg, b.data ≠ 0) →
      runAcc decode_bytes k s (seg ++ rest) =
        runAcc decode_bytes k
          ⟨s.received ++ seg.map (·.data),
           mergeStart s.frame_start_time seg,
           mergeEnd s.frame_end_time seg⟩ rest := by
  intro seg
  induction seg with
  | nil =>
    intro s rest hseg
    cases s with
    | mk r f e => cases f <;> simp [mergeStart, mergeEnd]
  | cons b tl ih =>
    intro s rest hseg
    have hb : b.data ≠ 0 := hseg b (by simp)
    have step : runAcc decode_bytes k s ((b :: tl) ++ rest) =
        runAcc decode_bytes k
          ⟨s.received ++ [b.data],
           if s.frame_start_time = none then some b.startTime
             else s.frame_start_time,
           some b.endTime⟩ (tl ++ rest) := by
      rw [List.cons_append]
      simp [runAcc, CobsXDecoder.decode, hb]
    rw [step, ih _ rest (fun x hx => hseg x (List.mem_cons_of_mem b hx))]
    rw [mergeStart_step, mergeEnd_step s.frame_end_time]
    simp [List.append_assoc]

/-- A delimiter-free trailing run of bytes emits nothing. -/
theorem runAcc_noDelim (decode_bytes : List Nat → Result) (k : Nat)
    (tail : List TimedByte) (s : AccState) (htail : ∀ b ∈ tail, b.data ≠ 0) :
    runAcc decode_bytes k s tail = [] := by
  have h := runAcc_seg decode_bytes k tail s [] htail
  rw [List.append_nil] at h
  rw [h, runAcc]

/-- A byte stream presented as delimiter-terminated segments: each pair is a
run of non-delimiter bytes followed by its terminating delimiter byte. -/
def segStream : List (List TimedByte × TimedByte) → List TimedByte
  | [] => []
  | (seg, d) :: rest => seg ++ d :: segStream rest

/-- Specification of the frames the accumulator emits on a segmented stream,
together with their timestamps: one frame per segment whose stripped buffer
is nonempty, carrying the codec result of the stripped buffer, a start time
equal to the previously recorded start (the previous delimiter's start time,
or — at stream start — the segment's first byte's start time) and an end time
equal to the last buffered byte's end time. -/
def specFrames (decode_bytes : List Nat → Result) (k : Nat) :
    Option Nat → List (List TimedByte × TimedByte) → List TimedFrame
  | _, [] => []
  | prev, (seg, d) :: rest =>
    (if stripBuf k (seg.map (·.data)) = [] then ([] : List TimedFrame)
      else [⟨mkKind (decode_bytes (stripBuf k (seg.map (·.data)))),
        mergeStart prev seg, mergeEnd none seg⟩]) ++
      specFrames decode_bytes k (some d.startTime) rest

/-- The accumulator run on a segmented stream (with an arbitrary
delimiter-free tail) emits exactly the frames of `specFrames`, starting from
a flushed state with any previously recorded start time `prev` and any stale
end time `fe` — in particular the emitted frames are independent of `fe`. -/
theorem runAcc_segStream (decode_bytes : List Nat → Result) (k : Nat) :
    ∀ (segs : List (List TimedByte × TimedByte)) (prev fe : Option Nat)
      (tail : List TimedByte),
      (∀ p ∈ segs, (∀ b ∈ p.1, b.data ≠ 0) ∧ p.2.data = 0) →
      (∀ b ∈ tail, b.data ≠ 0) →
      runAcc decode_bytes k ⟨[], prev, fe⟩ (segStream segs ++ tail) =
        specFrames decode_bytes k prev segs := by
  intro segs
  induction segs with
  | nil =>
    intro prev fe tail hsegs htail
    rw [segStream, specFrames, List.nil_append]
    exact runAcc_noDelim decode_bytes k tail _ htail
  | cons p rest ih =>
    obtain ⟨seg, d⟩ := p
    intro prev fe tail hsegs htail
    have hseg : ∀ b ∈ seg, b.data ≠ 0 := (hsegs (seg, d) (by simp)).1
    have hd : d.data = 0 := (hsegs (seg, d) (by simp)).2
    have hshape : segStream ((seg, d) :: rest) ++ tail =
        seg ++ (d :: (segStream rest ++ tail)) := by
      simp [segStream]
    rw [hshape, runAcc_seg decode_bytes k seg _ _ hseg]
    rw [runAcc_cons]
    have hrec : (CobsXDecoder.decode decode_bytes k
        ⟨[] ++ seg.map (·.data), mergeStart prev seg, mergeEnd fe seg⟩ d).1 =
        ⟨[], some d.startTime, mergeEnd fe seg⟩ := by
      simp [CobsXDecoder.decode, hd]
    rw [hrec, ih (some d.startTime) (mergeEnd fe seg) tail
      (fun q hq => hsegs q (List.mem_cons_of_mem _ hq)) htail]
    rw [specFrames]
    congr 1
    by_cases hstrip : stripBuf k (seg.map (·.data)) = []
    · rw [if_pos hstrip]
      have : (CobsXDecoder.decode decode_bytes k
          ⟨[] ++ seg.map (·.data), mergeStart prev seg, mergeEnd fe seg⟩ d).2 =
          none := by
        simp only [CobsXDecoder.decode, hd, if_pos rfl, List.nil_append]
        simp only [stripBuf, List.length_map] at hstrip
        simp [hstrip]
      rw [this]
      rfl
    · rw [if_neg hstrip]
      have hsegne : seg ≠ [] := by
        intro hnil
        subst hnil
        simp [stripBuf] at hstrip
      have hstart : mergeStart prev seg ≠ none := mergeStart_ne_none prev seg hsegne
      have : (CobsXDecoder.decode decode_bytes k
          ⟨[] ++ seg.map (·.data), mergeStart prev seg, mergeEnd fe seg⟩ d).2 =
          some ⟨mkKind (decode_bytes (stripBuf k (seg.map (·.data)))),
            mergeStart prev seg, mergeEnd fe seg⟩ := by
        simp only [CobsXDecoder.decode, hd, if_pos rfl, List.nil_append]
        simp only [stripBuf, List.length_map] at hstrip ⊢
        simp [hstrip, hstart]
      rw [this, mergeEnd_irrel fe none seg hsegne]
      rfl

/-- Counterexample to C8 as stated: on the stream `97@(1,2), 0@(3,4),
98@(5,6), 0@(7,8)` with prefix count 0 and the COBS codec, the two emitted
frames carry start times `[some 1, some 3]` — the second frame's start time
is the PREVIOUS DELIMITER's start time 3, whereas the claim requires the
timestamp of the first byte after the previous delimiter, which is byte 98
at start time 5. -/
theorem claim_C8_times_counterexample :
    (runAcc decode_cobs 0 accInit
        [⟨97, 1, 2⟩, ⟨0, 3, 4⟩, ⟨98, 5, 6⟩, ⟨0, 7, 8⟩]).map (fun f => f.startTime) =
      [some 1, some 3] ∧ (some 3 : Option Nat) ≠ some 5 := by
  constructor
  · simp [runAcc, CobsXDecoder.decode, accInit, mkKind, decode_cobs,
      decodeLoopCobs.eq_def]
  · simp

/-- C8 amended: on every stream decomposed into delimiter-terminated
segments (with a delimiter-free tail), each emitted Timed Frame's start time
is the previously recorded frame start — the previous delimiter byte's start
time, or, for the first frame, the first byte of the stream — and its end
time is the end timestamp of the last buffered byte before the current
delimiter, exactly as computed segment-wise by `specFrames`. -/
theorem claim_C8_frame_times (decode_bytes : List Nat → Result) (k : Nat)
    (segs : List (List TimedByte × TimedByte)) (tail : List TimedByte)
    (hsegs : ∀ p ∈ segs, (∀ b ∈ p.1, b.data ≠ 0) ∧ p.2.data = 0)
    (htail : ∀ b ∈ tail, b.data ≠ 0) :
    runAcc decode_bytes k accInit (segStream segs ++ tail) =
      specFrames decode_bytes k none segs :=
  runAcc_segStream decode_bytes k segs none none tail hsegs htail

/-- Witness for the amended C8 on a concrete two-segment stream. -/
theorem claim_C8_frame_times_witness :
    (∀ p ∈ [([⟨97, 1, 2⟩], (⟨0, 3, 4⟩ : TimedByte)),
        ([⟨98, 5, 6⟩], (⟨0, 7, 8⟩ : TimedByte))],
      (∀ b ∈ p.1, TimedByte.data b ≠ 0) ∧ p.2.data = 0) ∧
      (∀ b ∈ ([] : List TimedByte), TimedByte.data b ≠ 0) ∧
      runAcc decode_cobs 0 accInit
          (segStream [([⟨97, 1, 2⟩], ⟨0, 3, 4⟩), ([⟨98, 5, 6⟩], ⟨0, 7, 8⟩)] ++ []) =
        specFrames decode_cobs 0 none
          [([⟨97, 1, 2⟩], ⟨0, 3, 4⟩), ([⟨98, 5, 6⟩], ⟨0, 7, 8⟩)] :=
  ⟨by decide, by decide,
    claim_C8_frame_times decode_cobs 0
      [([⟨97, 1, 2⟩], ⟨0, 3, 4⟩), ([⟨98, 5, 6⟩], ⟨0, 7, 8⟩)] []
      (by decide) (by decide)⟩

end CobsHla
